import Mathlib

/-!
Shallow embedding of the `probabll/text` repository.

Generators are modelled as lists: a Python generator is identified with the
finite sequence of items it yields when fully drained.  A generator is
single-use: once iterated, further iteration yields nothing; where this
matters (`EnsureMaxLength.__call__`) the embedding makes the exhaustion
explicit.  Fallible Python code (exceptions raised while building or
iterating) is modelled with `Option`/`Except`.  The file system holding the
two sidecar artifacts of a store is a record of optional file contents.
-/

namespace ProbabllText

/-! ## Python string primitives

`str.strip()` and `str.split()` (no argument: split on runs of whitespace,
discarding empty fields) and `' '.join`, modelled on `List Char`. -/

/-- Python `str.strip()`: remove leading and trailing whitespace. -/
def pythonStrip (s : String) : String :=
  String.mk (((s.data.dropWhile Char.isWhitespace).reverse.dropWhile Char.isWhitespace).reverse)

/-- Worker for Python `str.split()`: `acc` holds the characters of the word
currently being read, in reverse. -/
def splitWSAux : List Char → List Char → List (List Char)
  | [], acc => if acc.isEmpty then [] else [acc.reverse]
  | c :: cs, acc =>
    if c.isWhitespace then
      if acc.isEmpty then splitWSAux cs [] else acc.reverse :: splitWSAux cs []
    else splitWSAux cs (c :: acc)

/-- Python `str.split()` with no argument: split on whitespace runs, no empty
fields. -/
def pythonSplit (s : String) : List String :=
  (splitWSAux s.data []).map String.mk

/-- Python `' '.join(ts)`. -/
def spaceJoin : List String → String
  | [] => ""
  | [t] => t
  | t :: ts => t ++ " " ++ spaceJoin ts

/-! ## Vocabulary -/

/-- Modelled from the spec: the repository's `text/vocabulary.py` (class
`Vocabulary`) is not under `src/`.  The spec describes it as an external
collaborator that "maps a token string to a stable integer id" (`vocab[word]`,
here `toId`) and "exposes reverse id→token lookup" (`vocab.word(t)`, here
`word`). -/
structure Vocabulary where
  toId : String → Nat
  word : Nat → String

/-! ## datasets.py : MemMappedCorpus -/

/-- Worker for `MemMappedCorpus.make_offsets`: the running `offset` is the
accumulator of the source's loop. -/
def make_offsets_go (offset : Nat) : List Nat → List Nat
  | [] => []
  | seq_len :: rest => offset :: make_offsets_go (offset + seq_len) rest

/-- `MemMappedCorpus.make_offsets(lengths)`. -/
def make_offsets (lengths : List Nat) : List Nat :=
  make_offsets_go 0 lengths

/-- `MemMappedCorpus.map_tokens_to_ids(generator, vocab)`. -/
def map_tokens_to_ids (generator : List (List String)) (vocab : Vocabulary) :
    List (List Nat) :=
  generator.map (fun sentence => sentence.map vocab.toId)

/-- `MemMappedCorpus.iterate_view(generator, stream)`: yields `t[stream]` for
every tuple `t`.  Python raises `IndexError` out of range; every use below
stays in range, where `getD` agrees with Python indexing. -/
def iterate_view (generator : List (List (List String))) (stream : Nat) :
    List (List String) :=
  generator.map (fun t => t.getD stream [])

/-- The numpy slice assignment `mmap[offset:offset+seq_len] = seq`.  numpy
raises on a shape mismatch or an out-of-bounds write; that is the `none`
case. -/
def write_slice (mmap : List Nat) (offset seq_len : Nat) (seq : List Nat) :
    Option (List Nat) :=
  if seq.length = seq_len ∧ offset + seq_len ≤ mmap.length then
    some (mmap.take offset ++ seq ++ mmap.drop (offset + seq_len))
  else none

/-- Worker for `MemMappedCorpus.construct_memmap`: the loop
`for seq, seq_len in zip(generator, lengths)` (zip stops at the shorter
input), threading the write offset and the mmap contents, collecting the
offsets list. -/
def construct_memmap_go :
    List (List Nat) → List Nat → Nat → List Nat → Option (List Nat × List Nat)
  | [], _, _, mmap => some ([], mmap)
  | _ :: _, [], _, mmap => some ([], mmap)
  | seq :: seqs, seq_len :: lens, offset, mmap =>
    match write_slice mmap offset seq_len seq with
    | none => none
    | some mmap2 =>
      match construct_memmap_go seqs lens (offset + seq_len) mmap2 with
      | none => none
      | some (offsets, final) => some (offset :: offsets, final)

/-- `MemMappedCorpus.construct_memmap(generator, lengths, output_path, dtype)`:
allocates a flat array of `sum(lengths)` elements (fresh memmap contents are
zero-filled) and populates it; returns the offsets array and the stored flat
array (the file contents later reopened by `np.memmap(..., mode='r')`). -/
def construct_memmap (generator : List (List Nat)) (lengths : List Nat) :
    Option (List Nat × List Nat) :=
  construct_memmap_go generator lengths 0 (List.replicate lengths.sum 0)

/-- The two sidecar artifacts for one `output_path` prefix:
`<output_path>.lengths.npy` and `<output_path>.memmap`.  `none` means the
file does not exist. -/
structure FileSystem where
  lengths_file : Option (List Nat)
  memmap_file : Option (List Nat)

/-- The in-memory state a constructed `MemMappedCorpus` holds: `self.lengths`,
`self.offsets`, the reopened flat array `self.mmap`, and `self.vocab`. -/
structure CorpusState where
  vocab : Vocabulary
  lengths : List Nat
  offsets : List Nat
  mmap : List Nat

/-- `MemMappedCorpus.__init__(generator, output_path, vocab, dtype, reuse)`.

Returns the corpus state, the file system after construction, and the number
of items drawn from the caller's generator (`tee` in the build path drains
the underlying generator completely; the load path never touches it).
`none` models an exception escaping the constructor. -/
def initCorpus (generator : List (List String)) (output : FileSystem)
    (vocab : Vocabulary) (reuse : Bool) :
    Option (CorpusState × FileSystem × Nat) :=
  match reuse, output.lengths_file, output.memmap_file with
  | true, some lens, some flat =>
    -- load path: lengths from file, offsets derived, mmap reopened from file
    some ({ vocab := vocab, lengths := lens, offsets := make_offsets lens,
            mmap := flat }, output, 0)
  | _, _, _ =>
    -- build path: one pass for lengths, one pass for ids, both files written
    let lengths := generator.map List.length
    match construct_memmap (map_tokens_to_ids generator vocab) lengths with
    | none => none
    | some (offsets, flat) =>
      some ({ vocab := vocab, lengths := lengths, offsets := offsets,
              mmap := flat },
            { lengths_file := some lengths, memmap_file := some flat },
            generator.length)

/-- `MemMappedCorpus.__len__`. -/
def CorpusState.len (c : CorpusState) : Nat :=
  c.lengths.length

/-- `MemMappedCorpus.as_memmap(idx)`: `self.mmap[offset : offset+length]`.
`none` models the `IndexError` of `self.offsets[idx]` / `self.lengths[idx]`
out of range. -/
def CorpusState.as_memmap (c : CorpusState) (idx : Nat) : Option (List Nat) :=
  match c.offsets[idx]?, c.lengths[idx]? with
  | some offset, some seq_len => some ((c.mmap.drop offset).take seq_len)
  | _, _ => none

/-- `MemMappedCorpus.as_string(idx)`: `' '.join(self.vocab.word(t) for t in
self.as_memmap(idx))`. -/
def CorpusState.as_string (c : CorpusState) (idx : Nat) : Option String :=
  (c.as_memmap idx).map (fun ids => spaceJoin (ids.map c.vocab.word))

/-! ## datasets.py : MemMappedParallelCorpus -/

/-- The `for i, it in enumerate(iterators[1:])` loop of
`MemMappedParallelCorpus.__init__`: one `MemMappedCorpus` per vocabulary,
stream `k` reading `iterate_view(it, k)` against the file-system prefix
`output_path + str(k)` (here `fss k`).  `tee` hands every view the full
tuple sequence even though the shared source is consumed destructively. -/
def initParallelGo (generator : List (List (List String)))
    (fss : Nat → FileSystem) (reuse : Bool) :
    List Vocabulary → Nat → Option (List CorpusState)
  | [], _ => some []
  | vocab :: vocabs, k =>
    match initCorpus (iterate_view generator k) (fss k) vocab reuse with
    | none => none
    | some (c, _, _) =>
      match initParallelGo generator fss reuse vocabs (k + 1) with
      | none => none
      | some cs => some (c :: cs)

/-- `MemMappedParallelCorpus.__init__(generator, output_path, vocabs, ...)`. -/
def initParallelCorpus (generator : List (List (List String)))
    (vocabs : List Vocabulary) (fss : Nat → FileSystem) (reuse : Bool) :
    Option (List CorpusState) :=
  initParallelGo generator fss reuse vocabs 0

/-- `MemMappedParallelCorpus.__len__`: `len(self.corpora[0])`. -/
def parallel_len (cs : List CorpusState) : Option Nat :=
  (cs[0]?).map CorpusState.len

/-- `MemMappedParallelCorpus.as_memmap(idx)`: fan out to every component
store. -/
def parallel_as_memmap (cs : List CorpusState) (idx : Nat) :
    List (Option (List Nat)) :=
  cs.map (fun c => c.as_memmap idx)

/-! ## lazy.py : EnsureMaxLength -/

/-- The state of an `EnsureMaxLength` instance: the two constructor arguments
and the mutable part-count ledger `self.nb_parts`. -/
structure EnsureMaxLength where
  max_length : Int
  split : Bool
  nb_parts : List Nat

/-- `EnsureMaxLength.__init__(max_length, split)`: stores the fields and an
empty ledger; no argument validation takes place here. -/
def mkEnsureMaxLength (max_length : Int) ( split : Bool) : EnsureMaxLength :=
  { max_length := max_length, split := split, nb_parts := [] }

/-- The `while True` loop of `EnsureMaxLength.split_list`, with the input
length as fuel: for `0 < size` every iteration consumes at least one element,
so `x.length` iterations always reach the final short chunk.  (With
`size = 0` the source loop would not terminate; `split_list` raises before
ever entering the loop in that case.) -/
def chunkifyGo (size : Nat) : Nat → List α → List (List α)
  | 0, x => [x]
  | fuel + 1, x =>
    if size < x.length then x.take size :: chunkifyGo size fuel (x.drop size)
    else [x]

/-- The chunking performed by `EnsureMaxLength.split_list` for `size > 0`:
consecutive chunks of exactly `size` elements, the final chunk taking the
remainder. -/
def chunkify (x : List α) (size : Nat) : List (List α) :=
  chunkifyGo size x.length x

/-- `EnsureMaxLength.split_list(x, size)`; the `ValueError` at `size = 0` is
the `Except.error` case. -/
def split_list (x : List α) (size : Int) : Except String (List (List α)) :=
  if size < 0 then .ok [x]
  else if size = 0 then .error "Use size -1 for no splitting or size more than 0."
  else .ok (chunkify x size.toNat)

/-- The `for line in generator` loop of `EnsureMaxLength.__call__`, threading
the ledger.  Returns the lines yielded, the final ledger, and the error, if
any, that iteration raised (a raised `ValueError` ends the output stream at
that point). -/
def callLoop (max_length : Int) ( split : Bool) :
    List String → List Nat → List String × List Nat × Option String
  | [], nb => ([], nb, none)
  | line :: rest, nb =>
    let stripped := pythonStrip line
    let tokens := pythonSplit stripped
    if (tokens.length : Int) ≤ max_length then
      -- nb_parts is updated before the yield
      let next := callLoop max_length split rest (nb ++ [1])
      (stripped :: next.1, next.2)
    else if split then
      match split_list tokens max_length with
      | .error e => ([], nb, some e)
      | .ok parts =>
        let next := callLoop max_length split rest (nb ++ [parts.length])
        (parts.map spaceJoin ++ next.1, next.2)
    else
      -- drop mode: no yield and no ledger entry for this line
      callLoop max_length split rest nb

/-- `EnsureMaxLength.__call__(generator)`.  With `max_length < 0` the source
first does `yield from generator` and then — there is no `else` — still runs
the loop, which finds the single-use generator exhausted. -/
def EnsureMaxLength.call (t : EnsureMaxLength) (generator : List String) :
    List String × EnsureMaxLength × Option String :=
  if t.max_length < 0 then
    let res := callLoop t.max_length t.split [] t.nb_parts
    (generator ++ res.1, { t with nb_parts := res.2.1 }, res.2.2)
  else
    let res := callLoop t.max_length t.split generator t.nb_parts
    (res.1, { t with nb_parts := res.2.1 }, res.2.2)

/-- The `for line in generator` loop of `EnsureMaxLength.join`, carrying the
ledger cursor `i` and the pending-parts buffer.  `nb_parts[i]` out of range is
Python's `IndexError` (the `some` error case). -/
def joinLoop (nb : List Nat) (i : Nat) (parts : List String) :
    List String → List String × Option String
  | [] => ([], none)
  | line :: rest =>
    let parts2 := parts ++ [line]
    match nb[i]? with
    | none => ([], some "IndexError")
    | some p =>
      if parts2.length = p then
        let next := joinLoop nb (i + 1) [] rest
        (spaceJoin parts2 :: next.1, next.2)
      else
        joinLoop nb i parts2 rest

/-- `EnsureMaxLength.join(generator)`. -/
def EnsureMaxLength.join (t : EnsureMaxLength) (generator : List String) :
    List String × Option String :=
  if t.max_length < 0 ∨ t.split = false then (generator, none)
  else joinLoop t.nb_parts 0 [] generator

/-! ## textprocessing.py : Pipeline and PrePostPipeline -/

/-- `textprocessing.Pipeline`: an ordered list of `StringToString` modules. -/
structure Pipeline where
  _modules : List (String → String)

/-- `Pipeline.__call__(line)`: apply each module in list order. -/
def Pipeline.call (p : Pipeline) (line : String) : String :=
  p._modules.foldl (fun l m => m l) line

/-- `textprocessing.PrePostPipeline`: two ordered module lists, `self._pre`
and `self._post`. -/
structure PrePostPipeline where
  _pre : List (String → String)
  _post : List (String → String)

/-- `PrePostPipeline.pre(line)`: apply the `_pre` modules in list order. -/
def PrePostPipeline.pre (p : PrePostPipeline) (line : String) : String :=
  p._pre.foldl (fun l m => m l) line

/-- `PrePostPipeline.post(line)`: apply the `_post` modules in list order. -/
def PrePostPipeline.post (p : PrePostPipeline) (line : String) : String :=
  p._post.foldl (fun l m => m l) line

/-- The spec's `LineTransform` capability: a paired `pre`/`post` over
strings. -/
structure LineTransform where
  pre : String → String
  post : String → String

/-- A `PrePostPipeline` over a list of steps, the `pre` operations and the
`post` operations each taken in step-list order. -/
def pipelineOfSteps (steps : List LineTransform) : PrePostPipeline :=
  { _pre := steps.map LineTransform.pre, _post := steps.map LineTransform.post }

/-- A `PrePostPipeline` over a list of steps whose `_post` list holds the
steps' `post` operations in reverse step order (as the repository's callers
construct it). -/
def pipelineOfStepsRev (steps : List LineTransform) : PrePostPipeline :=
  { _pre := steps.map LineTransform.pre,
    _post := (steps.map LineTransform.post).reverse }

/-- The corpus state `MemMappedCorpus.__init__` produces on its build
path. -/
def buildCorpusState (generator : List (List String)) (vocab : Vocabulary) :
    CorpusState :=
  { vocab := vocab,
    lengths := generator.map List.length,
    offsets := make_offsets (generator.map List.length),
    mmap := (map_tokens_to_ids generator vocab).flatten }

/-! ## A concrete invertible vocabulary

Used to instantiate theorems whose hypothesis asks for a vocabulary whose
reverse lookup inverts its forward lookup: strings are encoded as base-2^21
numerals over their characters (every code point is below 2^21). -/

def encodeChars : List Char → Nat
  | [] => 0
  | c :: cs => (c.toNat + 1) + 2097152 * encodeChars cs

/-- Decode `encodeChars`, with fuel (the encoded value shrinks by a factor of
2^21 each step, so `n` steps always suffice for input `n`). -/
def decodeCharsGo : Nat → Nat → List Char
  | 0, _ => []
  | fuel + 1, n =>
    if n = 0 then []
    else Char.ofNat (n % 2097152 - 1) :: decodeCharsGo fuel (n / 2097152)

/-- A total vocabulary whose reverse lookup inverts its forward lookup. -/
def encVocab : Vocabulary :=
  { toId := fun w => encodeChars w.data,
    word := fun n => String.mk (decodeCharsGo n n) }

/-- A small concrete vocabulary for witnesses that need no inverse
property. -/
def lenVocab : Vocabulary :=
  { toId := fun w => w.length, word := fun n => toString n }

/-! ## Concrete steps for the pipeline claims -/

/-- An invertible step: append the character `a`; its exact inverse drops the
last character. -/
def stepAppendA : LineTransform :=
  { pre := fun l => String.mk (l.data ++ ['a']),
    post := fun l => String.mk l.data.dropLast }

/-- An invertible step: reverse the characters; it is its own inverse. -/
def stepReverse : LineTransform :=
  { pre := fun l => String.mk l.data.reverse,
    post := fun l => String.mk l.data.reverse }

/-! ## Lemmas: offsets and the flat array -/

theorem make_offsets_go_length (lens : List Nat) :
    ∀ offset, (make_offsets_go offset lens).length = lens.length := by
  induction lens with
  | nil => intro offset; rfl
  | cons l ls ih => intro offset; simp [make_offsets_go, ih]

theorem make_offsets_go_getElem (lens : List Nat) :
    ∀ offset i, i < lens.length →
      (make_offsets_go offset lens)[i]? = some (offset + (lens.take i).sum) := by
  induction lens with
  | nil => intro offset i hi; simp at hi
  | cons l ls ih =>
    intro offset i hi
    cases i with
    | zero => simp [make_offsets_go]
    | succ j =>
      have hj : j < ls.length := by simpa using hi
      simp only [make_offsets_go, List.getElem?_cons_succ, List.take_succ_cons,
        List.sum_cons]
      rw [ih (offset + l) j hj]
      congr 1
      omega

theorem construct_memmap_go_spec (seqs : List (List Nat)) :
    ∀ (offset : Nat) (mmap : List Nat),
      mmap.length = offset + (seqs.map List.length).sum →
      construct_memmap_go seqs (seqs.map List.length) offset mmap =
        some (make_offsets_go offset (seqs.map List.length),
              mmap.take offset ++ seqs.flatten) := by
  induction seqs with
  | nil =>
    intro offset mmap hsz
    simp only [List.map_nil, List.sum_nil, Nat.add_zero] at hsz
    simp [construct_memmap_go, make_offsets_go,
      List.take_of_length_le (Nat.le_of_eq hsz)]
  | cons seq seqs ih =>
    intro offset mmap hsz
    simp only [List.map_cons, List.sum_cons] at hsz
    have hws : write_slice mmap offset seq.length seq =
        some (mmap.take offset ++ seq ++ mmap.drop (offset + seq.length)) := by
      unfold write_slice
      rw [if_pos]
      exact ⟨rfl, by omega⟩
    have h2 : (mmap.take offset ++ seq ++ mmap.drop (offset + seq.length)).length =
        (offset + seq.length) + (seqs.map List.length).sum := by
      simp only [List.length_append, List.length_take, List.length_drop]
      omega
    have hlen : (mmap.take offset ++ seq).length = offset + seq.length := by
      simp only [List.length_append, List.length_take]
      omega
    have h3 : (mmap.take offset ++ seq ++ mmap.drop (offset + seq.length)).take
        (offset + seq.length) = mmap.take offset ++ seq := by
      rw [← hlen, List.take_left]
    simp only [List.map_cons, construct_memmap_go, hws]
    rw [ih (offset + seq.length) _ h2, h3]
    simp [make_offsets_go, List.append_assoc]

theorem construct_memmap_spec (gen : List (List Nat)) (lengths : List Nat)
    (h : gen.map List.length = lengths) :
    construct_memmap gen lengths = some (make_offsets lengths, gen.flatten) := by
  subst h
  have := construct_memmap_go_spec gen 0
    (List.replicate (gen.map List.length).sum 0) (by simp)
  simpa [construct_memmap, make_offsets] using this

theorem flatten_slice (ids : List (List Nat)) :
    ∀ i, (hi : i < ids.length) →
      (ids.flatten.drop (((ids.map List.length).take i).sum)).take ids[i].length
        = ids[i] := by
  induction ids with
  | nil => intro i hi; simp at hi
  | cons x ids ih =>
    intro i hi
    cases i with
    | zero => simp [List.take_left]
    | succ j =>
      have hj : j < ids.length := by simpa using hi
      simp only [List.map_cons, List.take_succ_cons, List.sum_cons,
        List.flatten_cons, List.getElem_cons_succ, List.drop_append]
      exact ih j hj

theorem map_tokens_to_ids_lengths (generator : List (List String))
    (vocab : Vocabulary) :
    (map_tokens_to_ids generator vocab).map List.length =
      generator.map List.length := by
  simp [map_tokens_to_ids, Function.comp_def]

theorem initCorpus_build (generator : List (List String)) (output : FileSystem)
    (vocab : Vocabulary) :
    initCorpus generator output vocab false =
      some (buildCorpusState generator vocab,
            { lengths_file := some (generator.map List.length),
              memmap_file := some ((map_tokens_to_ids generator vocab).flatten) },
            generator.length) := by
  obtain ⟨lf, mf⟩ := output
  have hcm := construct_memmap_spec (map_tokens_to_ids generator vocab)
    (generator.map List.length) (map_tokens_to_ids_lengths generator vocab)
  cases lf <;> cases mf <;> simp [initCorpus, buildCorpusState, hcm]

theorem initCorpus_load (generator : List (List String)) (vocab : Vocabulary)
    (lens flat : List Nat) :
    initCorpus generator ⟨some lens, some flat⟩ vocab true =
      some ({ vocab := vocab, lengths := lens, offsets := make_offsets lens,
              mmap := flat }, ⟨some lens, some flat⟩, 0) := rfl

theorem buildCorpusState_as_memmap (generator : List (List String))
    (vocab : Vocabulary) (i : Nat) (hi : i < generator.length) :
    (buildCorpusState generator vocab).as_memmap i =
      some (generator[i].map vocab.toId) := by
  have hi' : i < (generator.map List.length).length := by simpa using hi
  have hido : i < (map_tokens_to_ids generator vocab).length := by
    simpa [map_tokens_to_ids] using hi
  have h1 : (make_offsets (generator.map List.length))[i]? =
      some (((generator.map List.length).take i).sum) := by
    have := make_offsets_go_getElem (generator.map List.length) 0 i hi'
    simpa [make_offsets] using this
  have h2 : (generator.map List.length)[i]? = some generator[i].length := by
    simp [List.getElem?_eq_getElem, hi', List.getElem_map]
    exact ⟨generator[i], by simp [List.getElem?_eq_getElem, hi], rfl⟩
  have h3 := flatten_slice (map_tokens_to_ids generator vocab) i hido
  rw [map_tokens_to_ids_lengths] at h3
  unfold CorpusState.as_memmap buildCorpusState
  simp only [h1, h2]
  rw [show (map_tokens_to_ids generator vocab)[i] = generator[i].map vocab.toId
    from by simp [map_tokens_to_ids]] at h3
  rw [show generator[i].length = (generator[i].map vocab.toId).length
    from by simp]
  rw [h3]

theorem buildCorpusState_as_string (generator : List (List String))
    (vocab : Vocabulary) (hv : ∀ w, vocab.word (vocab.toId w) = w)
    (i : Nat) (hi : i < generator.length) :
    (buildCorpusState generator vocab).as_string i =
      some (spaceJoin generator[i]) := by
  unfold CorpusState.as_string
  rw [buildCorpusState_as_memmap generator vocab i hi]
  simp [buildCorpusState, List.map_map, Function.comp_def, hv]

theorem char_toNat_lt (c : Char) : c.toNat < 1114112 := by
  rcases c.valid with h | ⟨_, h⟩ <;> simp [Char.toNat] <;> omega

theorem decodeCharsGo_encodeChars (l : List Char) :
    ∀ fuel, encodeChars l ≤ fuel → decodeCharsGo fuel (encodeChars l) = l := by
  induction l with
  | nil => intro fuel _; cases fuel <;> simp [decodeCharsGo, encodeChars]
  | cons c cs ih =>
    intro fuel hf
    have hc : c.toNat < 1114112 := char_toNat_lt c
    have hene : encodeChars (c :: cs) = (c.toNat + 1) + 2097152 * encodeChars cs :=
      rfl
    cases fuel with
    | zero => rw [hene] at hf; omega
    | succ f =>
      rw [hene] at hf ⊢
      simp only [decodeCharsGo]
      rw [if_neg (by omega)]
      have hmod : ((c.toNat + 1) + 2097152 * encodeChars cs) % 2097152 =
          c.toNat + 1 := by
        rw [Nat.add_mul_mod_self_left, Nat.mod_eq_of_lt (by omega)]
      have hdiv : ((c.toNat + 1) + 2097152 * encodeChars cs) / 2097152 =
          encodeChars cs := by
        rw [Nat.add_mul_div_left _ _ (by omega), Nat.div_eq_of_lt (by omega),
          Nat.zero_add]
      rw [hmod, hdiv, Nat.add_sub_cancel, Char.ofNat_toNat,
        ih f (by omega)]

theorem encVocab_inv : ∀ w, encVocab.word (encVocab.toId w) = w := by
  intro w
  show String.mk (decodeCharsGo (encodeChars w.data) (encodeChars w.data)) = w
  rw [decodeCharsGo_encodeChars w.data _ (Nat.le_refl _)]

/-! ## Claim theorems -/

/-- C1.  Store round trip: for every generator of tokenized lines and every
vocabulary whose reverse lookup inverts its forward lookup, after building a
`MemMappedCorpus` from that generator, `as_string(i)` equals the single-space
join of the original tokens of line `i`, for every index `i` below
`len()`. -/
theorem store_round_trip (generator : List (List String)) (output : FileSystem)
    (vocab : Vocabulary) (hv : ∀ w, vocab.word (vocab.toId w) = w)
    (i : Nat) (hi : i < generator.length) :
    ∃ c fs2 n, initCorpus generator output vocab false = some (c, fs2, n) ∧
      c.len = generator.length ∧
      c.as_string i = some (spaceJoin generator[i]) := by
  refine ⟨buildCorpusState generator vocab, _, _,
    initCorpus_build generator output vocab, ?_, ?_⟩
  · simp [CorpusState.len, buildCorpusState]
  · exact buildCorpusState_as_string generator vocab hv i hi

theorem store_round_trip_witness :
    (∀ w, encVocab.word (encVocab.toId w) = w) ∧
    0 < ([["hello", "world"], ["hi"]] : List (List String)).length ∧
    ∃ c fs2 n,
      initCorpus [["hello", "world"], ["hi"]] ⟨none, none⟩ encVocab false =
        some (c, fs2, n) ∧
      c.len = ([["hello", "world"], ["hi"]] : List (List String)).length ∧
      c.as_string 0 =
        some (spaceJoin (([["hello", "world"], ["hi"]] :
          List (List String))[0])) :=
  ⟨encVocab_inv, by decide,
    store_round_trip [["hello", "world"], ["hi"]] ⟨none, none⟩ encVocab
      encVocab_inv 0 (by decide)⟩

/-- C2.  Offset invariant: for every lengths sequence, the derived offsets
satisfy `offset[i] = sum of lengths[j] for j < i`; hence
`offset[i] + length[i] = offset[i+1]` below the last index, and
`offset[last] + length[last]` equals the total token count, the element count
of the flat id array built from those lengths. -/
theorem offset_invariant (lengths : List Nat) :
    (∀ i, i < lengths.length →
      (make_offsets lengths).getD i 0 = (lengths.take i).sum) ∧
    (∀ i, i + 1 < lengths.length →
      (make_offsets lengths).getD i 0 + lengths.getD i 0 =
        (make_offsets lengths).getD (i + 1) 0) ∧
    (∀ gen, gen.map List.length = lengths →
      ∃ offsets flat, construct_memmap gen lengths = some (offsets, flat) ∧
        flat.length = lengths.sum ∧
        (lengths ≠ [] →
          offsets.getD (lengths.length - 1) 0 +
            lengths.getD (lengths.length - 1) 0 = flat.length)) := by
  have hoff : ∀ i, i < lengths.length →
      (make_offsets lengths).getD i 0 = (lengths.take i).sum := by
    intro i hi
    have h : (make_offsets lengths)[i]? = some ((lengths.take i).sum) := by
      have h0 := make_offsets_go_getElem lengths 0 i hi
      simpa [make_offsets] using h0
    simp [List.getD, h]
  have hgetD : ∀ i, (hi : i < lengths.length) → lengths.getD i 0 = lengths[i] := by
    intro i hi
    simp [List.getD, List.getElem?_eq_getElem, hi]
  refine ⟨hoff, ?_, ?_⟩
  · intro i hi
    have hi0 : i < lengths.length := by omega
    rw [hoff i hi0, hoff (i + 1) hi, hgetD i hi0]
    have := List.sum_take_succ lengths i hi0
    simp only [List.get_eq_getElem] at this
    omega
  · intro gen hgen
    refine ⟨make_offsets lengths, gen.flatten,
      construct_memmap_spec gen lengths hgen, ?_, ?_⟩
    · rw [List.length_flatten, hgen]
    · intro hne
      have hlast : lengths.length - 1 < lengths.length := by
        have := List.length_pos.mpr hne
        omega
      rw [hoff (lengths.length - 1) hlast, hgetD (lengths.length - 1) hlast,
        List.length_flatten, hgen]
      have := List.sum_take_succ lengths (lengths.length - 1) hlast
      rw [show lengths.length - 1 + 1 = lengths.length from by
        have := List.length_pos.mpr hne
        omega, List.take_length] at this
      omega

theorem offset_invariant_witness :
    1 < ([2, 1, 3] : List Nat).length ∧
    (make_offsets [2, 1, 3]).getD 1 0 = (([2, 1, 3] : List Nat).take 1).sum ∧
    (make_offsets [2, 1, 3]).getD 1 0 + ([2, 1, 3] : List Nat).getD 1 0 =
      (make_offsets [2, 1, 3]).getD 2 0 ∧
    ([[5, 6], [7], [8, 9, 10]] : List (List Nat)).map List.length = [2, 1, 3] ∧
    ∃ offsets flat,
      construct_memmap [[5, 6], [7], [8, 9, 10]] [2, 1, 3] =
        some (offsets, flat) ∧
      flat.length = ([2, 1, 3] : List Nat).sum ∧
      (([2, 1, 3] : List Nat) ≠ [] →
        offsets.getD 2 0 + ([2, 1, 3] : List Nat).getD 2 0 = flat.length) := by
  have h := offset_invariant [2, 1, 3]
  exact ⟨by decide, h.1 1 (by decide), h.2.1 1 (by decide), by decide,
    h.2.2 [[5, 6], [7], [8, 9, 10]] (by decide)⟩

/-- C3.  Reuse equivalence: for every path where both sidecar artifacts
already exist (here: as just written by a build), constructing with
`reuse = true` takes the load path, consumes zero items of the new
generator, and yields the same `len()` and per-index string results as the
store that originally built those artifacts, whatever the new generator
holds. -/
theorem reuse_equivalence (gen1 gen2 : List (List String)) (vocab : Vocabulary)
    (fs0 : FileSystem) (c1 : CorpusState) (fs1 : FileSystem) (n : Nat)
    (hbuild : initCorpus gen1 fs0 vocab false = some (c1, fs1, n)) :
    ∃ c2, initCorpus gen2 fs1 vocab true = some (c2, fs1, 0) ∧
      c2.len = c1.len ∧ ∀ i, c2.as_string i = c1.as_string i := by
  rw [initCorpus_build] at hbuild
  simp only [Option.some.injEq, Prod.mk.injEq] at hbuild
  obtain ⟨hc, hf, -⟩ := hbuild
  subst hc
  subst hf
  exact ⟨buildCorpusState gen1 vocab, initCorpus_load gen2 vocab _ _,
    rfl, fun i => rfl⟩

theorem reuse_equivalence_witness :
    initCorpus [["a", "b"]] ⟨none, none⟩ lenVocab false =
      some (buildCorpusState [["a", "b"]] lenVocab,
            ⟨some [2], some [1, 1]⟩, 1) ∧
    ∃ c2, initCorpus [["zzz"], ["q", "r", "s"]] ⟨some [2], some [1, 1]⟩
        lenVocab true = some (c2, ⟨some [2], some [1, 1]⟩, 0) ∧
      c2.len = (buildCorpusState [["a", "b"]] lenVocab).len ∧
      ∀ i, c2.as_string i =
        (buildCorpusState [["a", "b"]] lenVocab).as_string i := by
  have hb : initCorpus [["a", "b"]] ⟨none, none⟩ lenVocab false =
      some (buildCorpusState [["a", "b"]] lenVocab,
            ⟨some [2], some [1, 1]⟩, 1) :=
    initCorpus_build [["a", "b"]] ⟨none, none⟩ lenVocab
  exact ⟨hb, reuse_equivalence [["a", "b"]] [["zzz"], ["q", "r", "s"]]
    lenVocab ⟨none, none⟩ _ _ _ hb⟩

/-- C5 counterexample.  The claim says a mismatched sidecar pair (lengths sum
≠ flat element count) makes construction fail on the reuse path; on the
contrary, with `[2]` as lengths file and the one-element flat file `[7]`
(sum 2 ≠ 1), construction succeeds and returns a corpus built from the raw
file contents. -/
theorem load_integrity_cex :
    ([2] : List Nat).sum ≠ ([7] : List Nat).length ∧
    initCorpus [] ⟨some [2], some [7]⟩ lenVocab true =
      some ({ vocab := lenVocab, lengths := [2], offsets := [0], mmap := [7] },
            ⟨some [2], some [7]⟩, 0) :=
  ⟨by decide, rfl⟩

/-- C5 (amended).  No integrity check happens at load time: whenever both
sidecar artifacts exist and `reuse` is true, construction succeeds and
returns the raw file contents even when the sum of the lengths file differs
from the element count of the flat array — the corruption goes undetected at
load time. -/
theorem load_skips_integrity_check (generator : List (List String))
    (vocab : Vocabulary) (lens flat : List Nat)
    (hmis : lens.sum ≠ flat.length) :
    initCorpus generator ⟨some lens, some flat⟩ vocab true =
      some ({ vocab := vocab, lengths := lens, offsets := make_offsets lens,
              mmap := flat }, ⟨some lens, some flat⟩, 0) :=
  initCorpus_load generator vocab lens flat

theorem load_skips_integrity_check_witness :
    ([2] : List Nat).sum ≠ ([9, 9, 9] : List Nat).length ∧
    initCorpus [["x"]] ⟨some [2], some [9, 9, 9]⟩ lenVocab true =
      some ({ vocab := lenVocab, lengths := [2], offsets := make_offsets [2],
              mmap := [9, 9, 9] }, ⟨some [2], some [9, 9, 9]⟩, 0) :=
  ⟨by decide,
    load_skips_integrity_check [["x"]] lenVocab [2] [9, 9, 9] (by decide)⟩

theorem initParallelGo_build (generator : List (List (List String)))
    (fss : Nat → FileSystem) :
    ∀ (vocabs : List Vocabulary) (k : Nat),
      ∃ cs, initParallelGo generator fss false vocabs k = some cs ∧
        cs.length = vocabs.length ∧
        ∀ j, (hj : j < vocabs.length) →
          cs[j]? =
            some (buildCorpusState (iterate_view generator (k + j))
              vocabs[j]) := by
  intro vocabs
  induction vocabs with
  | nil => exact fun k => ⟨[], rfl, rfl, fun j hj => absurd hj (by simp)⟩
  | cons v vs ih =>
    intro k
    obtain ⟨cs, hcs, hlen, hidx⟩ := ih (k + 1)
    refine ⟨buildCorpusState (iterate_view generator k) v :: cs, ?_,
      by simp [hlen], ?_⟩
    · simp only [initParallelGo, initCorpus_build, hcs]
    · intro j hj
      cases j with
      | zero => simp
      | succ m =>
        have hm : m < vs.length := by simpa using hj
        simp only [List.getElem?_cons_succ, List.getElem_cons_succ]
        rw [hidx m hm, show k + (m + 1) = k + 1 + m from by omega]

/-- C6.  Parallel alignment: for every N-stream interleaved generator of K
tuples, the parallel store builds one component per vocabulary, every
component has `len() == K`, and for every `i < K` the `k`-th entry of
`as_memmap(i)` is the token-id sequence (under vocabulary `k`) of stream `k`
of the `i`-th original tuple — every component sees every tuple despite the
shared generator being single-use (`tee`). -/
theorem parallel_alignment (generator : List (List (List String)))
    (vocabs : List Vocabulary) (fss : Nat → FileSystem)
    (hN : ∀ t ∈ generator, t.length = vocabs.length) :
    ∃ cs, initParallelCorpus generator vocabs fss false = some cs ∧
      cs.length = vocabs.length ∧
      (∀ c ∈ cs, c.len = generator.length) ∧
      ∀ i, (hi : i < generator.length) → ∀ k, (hk : k < vocabs.length) →
        (parallel_as_memmap cs i).getD k none =
          some ((generator[i].getD k []).map vocabs[k].toId) := by
  obtain ⟨cs, hcs, hlen, hidx⟩ := initParallelGo_build generator fss vocabs 0
  have hview : ∀ k, (iterate_view generator k).length = generator.length := by
    intro k
    simp [iterate_view]
  refine ⟨cs, hcs, hlen, ?_, ?_⟩
  · intro c hc
    obtain ⟨j, hjq⟩ := List.mem_iff_getElem?.mp hc
    have hj : j < cs.length := by
      by_contra hcon
      rw [List.getElem?_eq_none (by omega)] at hjq
      exact Option.noConfusion hjq
    have hj' : j < vocabs.length := hlen ▸ hj
    rw [hidx j hj'] at hjq
    have hc' : c = buildCorpusState (iterate_view generator (0 + j)) vocabs[j] :=
      (Option.some.inj hjq).symm
    rw [hc']
    simp [CorpusState.len, buildCorpusState, iterate_view]
  · intro i hi k hk
    have hk' : k < cs.length := by omega
    have hiv : i < (iterate_view generator k).length := by
      rw [hview k]; exact hi
    unfold parallel_as_memmap
    have hmapk : (cs.map (fun c => c.as_memmap i))[k]? =
        (cs[k]?).map (fun c => c.as_memmap i) := List.getElem?_map _ cs k
    rw [List.getD, List.get?_eq_getElem?, hmapk, hidx k hk]
    simp only [Option.map_some', Nat.zero_add, Option.getD_some]
    rw [buildCorpusState_as_memmap _ vocabs[k] i (by simpa using hiv)]
    congr 1
    rw [show (iterate_view generator k)[i] = generator[i].getD k [] from by
      simp [iterate_view]]

theorem parallel_alignment_witness :
    (∀ t ∈ ([[["a"], ["x", "y"]], [["b", "c"], ["z"]]] :
        List (List (List String))), t.length = 2) ∧
    ∃ cs, initParallelCorpus [[["a"], ["x", "y"]], [["b", "c"], ["z"]]]
        [lenVocab, encVocab] (fun _ => ⟨none, none⟩) false = some cs ∧
      cs.length = 2 ∧
      (∀ c ∈ cs, c.len = 2) ∧
      (parallel_as_memmap cs 1).getD 0 none = some [1, 1] ∧
      (parallel_as_memmap cs 1).getD 1 none = some [123] := by
  obtain ⟨cs, h1, h2, h3, h4⟩ := parallel_alignment
    [[["a"], ["x", "y"]], [["b", "c"], ["z"]]] [lenVocab, encVocab]
    (fun _ => ⟨none, none⟩) (by decide)
  refine ⟨by decide, cs, h1, h2, h3, ?_, ?_⟩
  · rw [h4 1 (by decide) 0 (by decide)]
    decide
  · rw [h4 1 (by decide) 1 (by decide)]
    decide

/-! ## Lemmas: chunking, space-joining and the ledger loop -/

theorem chunkifyGo_flatten (size : Nat) (hs : 0 < size) :
    ∀ fuel (x : List α), x.length ≤ fuel →
      (chunkifyGo size fuel x).flatten = x := by
  intro fuel
  induction fuel with
  | zero => intro x _; simp [chunkifyGo]
  | succ f ih =>
    intro x hx
    simp only [chunkifyGo]
    by_cases h : size < x.length
    · rw [if_pos h]
      simp only [List.flatten_cons]
      rw [ih (x.drop size) (by simp only [List.length_drop]; omega)]
      exact List.take_append_drop size x
    · rw [if_neg h]
      simp

theorem chunkifyGo_length (size : Nat) (hs : 0 < size) :
    ∀ fuel (x : List α), x.length ≤ fuel → x ≠ [] →
      (chunkifyGo size fuel x).length = (x.length + size - 1) / size := by
  intro fuel
  induction fuel with
  | zero =>
    intro x hx hne
    have hx0 : x.length = 0 := by omega
    exact absurd (List.length_eq_zero.mp hx0) hne
  | succ f ih =>
    intro x hx hne
    have hxpos : 0 < x.length := List.length_pos.mpr hne
    simp only [chunkifyGo]
    by_cases h : size < x.length
    · rw [if_pos h]
      simp only [List.length_cons]
      rw [ih (x.drop size) (by simp only [List.length_drop]; omega)
        (by
          intro hd
          have := congrArg List.length hd
          simp only [List.length_drop, List.length_nil] at this
          omega)]
      simp only [List.length_drop]
      rw [show x.length - size + size - 1 = x.length - 1 from by omega,
        show x.length + size - 1 = (x.length - 1) + size from by omega,
        Nat.add_div_right _ hs]
    · rw [if_neg h]
      simp only [List.length_singleton]
      exact (Nat.div_eq_of_lt_le (by omega) (by omega)).symm

theorem chunkifyGo_chunks_ne_nil (size : Nat) (hs : 0 < size) :
    ∀ fuel (x : List α), x ≠ [] → ∀ chunk ∈ chunkifyGo size fuel x,
      chunk ≠ [] := by
  intro fuel
  induction fuel with
  | zero =>
    intro x hne chunk hc
    simp [chunkifyGo] at hc
    exact hc ▸ hne
  | succ f ih =>
    intro x hne chunk hc
    simp only [chunkifyGo] at hc
    by_cases h : size < x.length
    · rw [if_pos h] at hc
      rcases List.mem_cons.mp hc with rfl | hmem
      · intro hcontra
        have := congrArg List.length hcontra
        simp only [List.length_take, List.length_nil] at this
        omega
      · exact ih (x.drop size)
          (by
            intro hd
            have := congrArg List.length hd
            simp only [List.length_drop, List.length_nil] at this
            omega)
          chunk hmem
    · rw [if_neg h] at hc
      simp at hc
      exact hc ▸ hne

theorem chunkifyGo_ne_nil (size fuel : Nat) (x : List α) :
    chunkifyGo size fuel x ≠ [] := by
  cases fuel with
  | zero => simp [chunkifyGo]
  | succ f =>
    simp only [chunkifyGo]
    by_cases h : size < x.length
    · rw [if_pos h]; simp
    · rw [if_neg h]; simp

theorem chunkify_flatten (x : List α) (size : Nat) (hs : 0 < size) :
    (chunkify x size).flatten = x :=
  chunkifyGo_flatten size hs x.length x (Nat.le_refl _)

theorem chunkify_length (x : List α) (size : Nat) (hs : 0 < size)
    (hne : x ≠ []) :
    (chunkify x size).length = (x.length + size - 1) / size :=
  chunkifyGo_length size hs x.length x (Nat.le_refl _) hne

theorem spaceJoin_cons (t : String) (ts : List String) (h : ts ≠ []) :
    spaceJoin (t :: ts) = t ++ " " ++ spaceJoin ts := by
  cases ts with
  | nil => exact absurd rfl h
  | cons a l => rfl

theorem spaceJoin_append (a b : List String) (ha : a ≠ []) (hb : b ≠ []) :
    spaceJoin (a ++ b) = spaceJoin a ++ " " ++ spaceJoin b := by
  induction a with
  | nil => exact absurd rfl ha
  | cons t a2 ih =>
    cases a2 with
    | nil => simp [spaceJoin_cons t b hb, spaceJoin]
    | cons u a3 =>
      rw [List.cons_append, spaceJoin_cons t ((u :: a3) ++ b) (by simp),
        spaceJoin_cons t (u :: a3) (by simp), ih (by simp)]
      simp [String.append_assoc]

theorem flatten_ne_nil (l : List (List α)) (hl : l ≠ [])
    (h : ∀ x ∈ l, x ≠ []) : l.flatten ≠ [] := by
  cases l with
  | nil => exact absurd rfl hl
  | cons a t =>
    have ha := h a (by simp)
    simp only [List.flatten_cons]
    intro hc
    rw [List.append_eq_nil] at hc
    exact ha hc.1

theorem spaceJoin_flatten (chunks : List (List String)) (hne : chunks ≠ [])
    (hc : ∀ c ∈ chunks, c ≠ []) :
    spaceJoin (chunks.map spaceJoin) = spaceJoin chunks.flatten := by
  induction chunks with
  | nil => exact absurd rfl hne
  | cons c cs ih =>
    cases cs with
    | nil =>
      simp only [List.map_cons, List.map_nil, List.flatten_cons,
        List.flatten_nil, List.append_nil]
      rfl
    | cons d ds =>
      have hcs : (d :: ds) ≠ [] := by simp
      have hcne : c ≠ [] := hc c (by simp)
      have hfl : (d :: ds).flatten ≠ [] :=
        flatten_ne_nil _ hcs (fun x hx => hc x (List.mem_cons_of_mem c hx))
      calc spaceJoin ((c :: d :: ds).map spaceJoin)
          = spaceJoin c ++ " " ++ spaceJoin ((d :: ds).map spaceJoin) := by
            rw [List.map_cons]
            exact spaceJoin_cons _ _ (by simp)
        _ = spaceJoin c ++ " " ++ spaceJoin ((d :: ds).flatten) := by
            rw [ih hcs (fun x hx => hc x (List.mem_cons_of_mem c hx))]
        _ = spaceJoin (c ++ (d :: ds).flatten) :=
            (spaceJoin_append c _ hcne hfl).symm
        _ = spaceJoin ((c :: d :: ds).flatten) := by
            simp [List.flatten_cons]

theorem split_list_pos (x : List α) (size : Int) (hs : 0 < size) :
    split_list x size = .ok (chunkify x size.toNat) := by
  unfold split_list
  rw [if_neg (by omega), if_neg (by omega)]

theorem joinLoop_cons (nb : List Nat) (i : Nat) (parts : List String)
    (line : String) (rest : List String) :
    joinLoop nb i parts (line :: rest) =
      match nb[i]? with
      | none => ([], some "IndexError")
      | some p =>
        if (parts ++ [line]).length = p then
          (spaceJoin (parts ++ [line]) :: (joinLoop nb (i + 1) [] rest).1,
           (joinLoop nb (i + 1) [] rest).2)
        else joinLoop nb i (parts ++ [line]) rest := rfl

theorem joinLoop_fill (nb : List Nat) (p : Nat) :
    ∀ (g : List String) (i : Nat) (parts : List String) (rest : List String),
      nb[i]? = some p → parts.length + g.length = p → g ≠ [] →
      joinLoop nb i parts (g ++ rest) =
        ((spaceJoin (parts ++ g)) :: (joinLoop nb (i + 1) [] rest).1,
         (joinLoop nb (i + 1) [] rest).2) := by
  intro g
  induction g with
  | nil => intro i parts rest _ _ hg; exact absurd rfl hg
  | cons a g2 ih =>
    intro i parts rest hnb hlen _
    cases g2 with
    | nil =>
      have hl : (parts ++ [a]).length = p := by
        simp only [List.length_cons, List.length_nil] at hlen
        simp only [List.length_append, List.length_singleton]
        omega
      rw [List.cons_append, List.nil_append, joinLoop_cons, hnb]
      dsimp only
      rw [if_pos hl]
    | cons b g3 =>
      have hl2 : (parts ++ [a]).length + (b :: g3).length = p := by
        simp only [List.length_cons] at hlen
        simp only [List.length_append, List.length_singleton, List.length_cons,
          List.length_nil]
        omega
      have hne2 : (parts ++ [a]).length ≠ p := by
        have hl3 := hl2
        simp only [List.length_cons] at hl3
        omega
      rw [List.cons_append, joinLoop_cons, hnb]
      dsimp only
      rw [if_neg hne2, ih i (parts ++ [a]) rest hnb hl2 (by simp)]
      simp [List.append_assoc]

theorem joinLoop_short (nb : List Nat) (p : Nat) :
    ∀ (tail : List String) (i : Nat) (parts : List String),
      nb[i]? = some p → parts.length + tail.length < p →
      joinLoop nb i parts tail = ([], none) := by
  intro tail
  induction tail with
  | nil => intro i parts _ _; rfl
  | cons line rest ih =>
    intro i parts hnb hlen
    have hlt : (parts ++ [line]).length + rest.length < p := by
      simp only [List.length_cons] at hlen
      simp only [List.length_append, List.length_singleton]
      omega
    have hne2 : (parts ++ [line]).length ≠ p := by omega
    rw [joinLoop_cons, hnb]
    dsimp only
    rw [if_neg hne2]
    exact ih i (parts ++ [line]) hnb hlt

theorem callLoop_nil (ml : Int) ( sp : Bool) (nb : List Nat) :
    callLoop ml sp [] nb = ([], nb, none) := rfl

theorem callLoop_cons (ml : Int) ( sp : Bool) (line : String)
    (rest : List String) (nb : List Nat) :
    callLoop ml sp (line :: rest) nb =
      if ((pythonSplit (pythonStrip line)).length : Int) ≤ ml then
        (pythonStrip line :: (callLoop ml sp rest (nb ++ [1])).1,
         (callLoop ml sp rest (nb ++ [1])).2)
      else if sp then
        match split_list (pythonSplit (pythonStrip line)) ml with
        | .error e => ([], nb, some e)
        | .ok parts =>
          (parts.map spaceJoin ++
            (callLoop ml sp rest (nb ++ [parts.length])).1,
           (callLoop ml sp rest (nb ++ [parts.length])).2)
      else callLoop ml sp rest nb := rfl

/-- C7.  Disabled-mode pass-through: with `max_length < 0` (any `split`
setting) the transformer is the identity on the stream — `yield from`
forwards every line unchanged exactly once, the subsequent loop finds the
single-use generator exhausted, and the part-count ledger is untouched. -/
theorem disabled_passthrough (t : EnsureMaxLength) (h : t.max_length < 0)
    (stream : List String) :
    t.call stream = (stream, t, none) := by
  unfold EnsureMaxLength.call
  rw [if_pos h]
  simp [callLoop]

theorem disabled_passthrough_witness :
    (mkEnsureMaxLength (-1) true).max_length < 0 ∧
    (mkEnsureMaxLength (-1) true).call ["a  b", ""] =
      (["a  b", ""], mkEnsureMaxLength (-1) true, none) :=
  ⟨by decide,
    disabled_passthrough (mkEnsureMaxLength (-1) true) (by decide)
      ["a  b", ""]⟩

/-- C9 counterexample.  The claim says `max_length = 0` is rejected with a
configuration error at construction time, before any line is processed; in
fact `__init__` stores the value without any validation — construction
succeeds — and the `ValueError` from `split_list` surfaces only once `pre`
processes a line. -/
theorem zero_chunk_construction_cex :
    mkEnsureMaxLength 0 true =
      { max_length := 0, split := true, nb_parts := [] } ∧
    (mkEnsureMaxLength 0 true).call ["a b"] =
      ([], mkEnsureMaxLength 0 true,
       some "Use size -1 for no splitting or size more than 0.") :=
  ⟨rfl, rfl⟩

/-- C9 (amended).  Constructing `EnsureMaxLength` with `max_length = 0`
always succeeds (no validation happens in the constructor); the
`ValueError` of `split_list` is raised lazily, when `pre` in split mode
reaches the first line that still has a token after stripping. -/
theorem zero_chunk_lazy_error ( split : Bool) (line : String)
    (rest : List String) (h : pythonSplit (pythonStrip line) ≠ []) :
    mkEnsureMaxLength 0 split =
      { max_length := 0, split := split, nb_parts := [] } ∧
    (mkEnsureMaxLength 0 true).call (line :: rest) =
      ([], mkEnsureMaxLength 0 true,
       some "Use size -1 for no splitting or size more than 0.") := by
  refine ⟨rfl, ?_⟩
  have hlen : 0 < (pythonSplit (pythonStrip line)).length := List.length_pos.mpr h
  unfold EnsureMaxLength.call mkEnsureMaxLength
  dsimp only
  rw [if_neg (by omega : ¬(0 : Int) < 0), callLoop_cons,
    if_neg (by
      simp only [not_le]
      exact_mod_cast hlen),
    if_pos rfl,
    show split_list (pythonSplit (pythonStrip line)) (0 : Int) =
        Except.error "Use size -1 for no splitting or size more than 0." from by
      unfold split_list
      rw [if_neg (by omega), if_pos rfl]]

theorem zero_chunk_lazy_error_witness :
    pythonSplit (pythonStrip "a b") ≠ [] ∧
    (mkEnsureMaxLength 0 true =
      { max_length := 0, split := true, nb_parts := [] } ∧
    (mkEnsureMaxLength 0 true).call ["a b"] =
      ([], mkEnsureMaxLength 0 true,
       some "Use size -1 for no splitting or size more than 0.")) :=
  ⟨by decide, zero_chunk_lazy_error true "a b" [] (by decide)⟩

theorem joinLoop_groups (nb : List Nat) :
    ∀ (gs : List (List String)) (i : Nat) (tail : List String) (p : Nat),
      (∀ k, (hk : k < gs.length) →
        nb[i + k]? = some gs[k].length ∧ gs[k] ≠ []) →
      nb[i + gs.length]? = some p → tail.length < p →
      joinLoop nb i [] (gs.flatten ++ tail) = (gs.map spaceJoin, none) := by
  intro gs
  induction gs with
  | nil =>
    intro i tail p _ hp htail
    simp only [List.flatten_nil, List.nil_append, List.map_nil]
    exact joinLoop_short nb p tail i [] (by simpa using hp) (by simpa using htail)
  | cons g gs ih =>
    intro i tail p hg hp htail
    obtain ⟨hg0, hgne⟩ := hg 0 (by simp)
    rw [List.flatten_cons, List.append_assoc]
    rw [joinLoop_fill nb g.length g i [] (gs.flatten ++ tail)
      (by simpa using hg0) (by simp) hgne]
    have hrec := ih (i + 1) tail p
      (fun k hk => by
        have hx := hg (k + 1) (by simpa using hk)
        simpa [show i + (k + 1) = i + 1 + k from by omega] using hx)
      (by
        have hx := hp
        rw [show i + (g :: gs).length = i + 1 + gs.length from by
          simp only [List.length_cons]; omega] at hx
        exact hx)
      htail
    rw [hrec]
    simp

/-- C10.  If the stream fed to `join` ends while the pending-parts buffer
holds fewer lines than the current ledger entry `nb_parts[i]`, `join`
terminates normally, emitting only the complete groups before it and nothing
for the trailing incomplete group — no partial output and no error. -/
theorem join_discards_incomplete_tail (t : EnsureMaxLength)
    (hml : 0 < t.max_length) (hsp : t.split = true)
    (gs : List (List String)) (tail : List String) (p : Nat)
    (hg : ∀ k, (hk : k < gs.length) →
      t.nb_parts[k]? = some gs[k].length ∧ gs[k] ≠ [])
    (hp : t.nb_parts[gs.length]? = some p) (htail : tail.length < p) :
    t.join (gs.flatten ++ tail) = (gs.map spaceJoin, none) := by
  unfold EnsureMaxLength.join
  rw [if_neg (by rw [hsp]; simp; omega)]
  exact joinLoop_groups t.nb_parts gs 0 tail p
    (fun k hk => by simpa using hg k hk) (by simpa using hp) htail

theorem join_discards_incomplete_tail_witness :
    (0 : Int) < (⟨2, true, [2, 3]⟩ : EnsureMaxLength).max_length ∧
    (⟨2, true, [2, 3]⟩ : EnsureMaxLength).split = true ∧
    (1 : Nat) < 3 ∧
    ([["a", "b"]] : List (List String)).map spaceJoin = ["a b"] ∧
    EnsureMaxLength.join ⟨2, true, [2, 3]⟩ (["a", "b"] ++ ["c"]) =
      (["a b"], none) := by
  refine ⟨by decide, rfl, by decide, by decide, ?_⟩
  have h := join_discards_incomplete_tail ⟨2, true, [2, 3]⟩ (by decide) rfl
    [["a", "b"]] ["c"] 3
    (by
      intro k hk
      have hk0 : k = 0 := by simpa using hk
      subst hk0
      simp only [List.getElem_cons_zero]
      exact ⟨rfl, by decide⟩)
    rfl (by decide)
  simpa using h

/-- C4.  Split/join round trip: with `max_length = L > 0`, `split = true`,
and an input line of `T > L` whitespace-delimited tokens, `pre` emits
exactly `ceil(T/L)` parts whose space-joined concatenation in emission order
equals the original line's tokens; `join` of the same instance, fed those
parts in emission order, reconstructs exactly one line equal to the
space-joined original tokens. -/
theorem split_join_round_trip (L : Int) (hL : 0 < L) (line : String)
    (hT : L < ((pythonSplit (pythonStrip line)).length : Int)) :
    ∃ parts t2,
      (mkEnsureMaxLength L true).call [line] = (parts, t2, none) ∧
      parts.length =
        ((pythonSplit (pythonStrip line)).length + L.toNat - 1) / L.toNat ∧
      spaceJoin parts = spaceJoin (pythonSplit (pythonStrip line)) ∧
      t2.join parts = ([spaceJoin (pythonSplit (pythonStrip line))], none) := by
  have hs : 0 < L.toNat := by omega
  have hlenN : L.toNat < (pythonSplit (pythonStrip line)).length := by omega
  have htne : pythonSplit (pythonStrip line) ≠ [] := by
    intro hc
    rw [hc] at hlenN
    simp at hlenN
  have hchne : ∀ c ∈ chunkify (pythonSplit (pythonStrip line)) L.toNat,
      c ≠ [] :=
    chunkifyGo_chunks_ne_nil L.toNat hs _ _ htne
  have hnil : chunkify (pythonSplit (pythonStrip line)) L.toNat ≠ [] :=
    chunkifyGo_ne_nil _ _ _
  have hflat : (chunkify (pythonSplit (pythonStrip line)) L.toNat).flatten =
      pythonSplit (pythonStrip line) := chunkify_flatten _ _ hs
  have hloop : callLoop L true [line] [] =
      ((chunkify (pythonSplit (pythonStrip line)) L.toNat).map spaceJoin,
       [(chunkify (pythonSplit (pythonStrip line)) L.toNat).length], none) := by
    rw [callLoop_cons, if_neg (not_le.mpr hT), if_pos rfl,
      split_list_pos _ _ hL]
    dsimp only
    rw [callLoop_nil]
    simp
  have hcall : (mkEnsureMaxLength L true).call [line] =
      ((chunkify (pythonSplit (pythonStrip line)) L.toNat).map spaceJoin,
       { max_length := L, split := true,
         nb_parts :=
           [(chunkify (pythonSplit (pythonStrip line)) L.toNat).length] },
       none) := by
    unfold EnsureMaxLength.call mkEnsureMaxLength
    dsimp only
    rw [if_neg (by omega : ¬L < 0), hloop]
  refine ⟨_, _, hcall, ?_, ?_, ?_⟩
  · rw [List.length_map]
    exact chunkify_length _ _ hs htne
  · rw [spaceJoin_flatten _ hnil hchne, hflat]
  · unfold EnsureMaxLength.join
    dsimp only
    rw [if_neg (by simp; omega)]
    have hfill := joinLoop_fill
      [(chunkify (pythonSplit (pythonStrip line)) L.toNat).length]
      ((chunkify (pythonSplit (pythonStrip line)) L.toNat).length)
      ((chunkify (pythonSplit (pythonStrip line)) L.toNat).map spaceJoin)
      0 [] [] rfl (by simp)
      (by
        intro hc
        exact hnil (List.map_eq_nil_iff.mp hc))
    rw [List.append_nil] at hfill
    rw [hfill]
    simp only [List.nil_append]
    rw [spaceJoin_flatten _ hnil hchne, hflat]
    rfl

theorem split_join_round_trip_witness :
    (0 : Int) < 3 ∧
    (3 : Int) < ((pythonSplit (pythonStrip "a b c d e")).length : Int) ∧
    (mkEnsureMaxLength 3 true).call ["a b c d e"] =
      (["a b c", "d e"], ⟨3, true, [2]⟩, none) ∧
    ∃ parts t2,
      (mkEnsureMaxLength 3 true).call ["a b c d e"] = (parts, t2, none) ∧
      parts.length =
        ((pythonSplit (pythonStrip "a b c d e")).length + (3 : Int).toNat - 1)
          / (3 : Int).toNat ∧
      spaceJoin parts = spaceJoin (pythonSplit (pythonStrip "a b c d e")) ∧
      t2.join parts =
        ([spaceJoin (pythonSplit (pythonStrip "a b c d e"))], none) :=
  ⟨by decide, by decide, rfl,
    split_join_round_trip 3 (by decide) "a b c d e" (by decide)⟩

/-! ## C8: pipeline composition order -/

theorem stepAppendA_inv (l : String) :
    stepAppendA.post (stepAppendA.pre l) = l := by
  show String.mk (l.data ++ ['a']).dropLast = l
  rw [List.dropLast_concat]

theorem stepReverse_inv (l : String) :
    stepReverse.post (stepReverse.pre l) = l := by
  show String.mk l.data.reverse.reverse = l
  rw [List.reverse_reverse]

theorem cexSteps_inv :
    ∀ s ∈ [stepAppendA, stepReverse], ∀ l, s.post (s.pre l) = l := by
  intro s hs l
  rcases List.mem_cons.mp hs with rfl | hs2
  · exact stepAppendA_inv l
  · rcases List.mem_cons.mp hs2 with rfl | hs3
    · exact stepReverse_inv l
    · simp at hs3

/-- C8 counterexample.  The claim says `post` applies the steps' post
operations in reverse list order, making a pipeline of exact-inverse steps
self-inverse; in the source, `PrePostPipeline.post` applies its `_post` list
in forward order.  For the two-step pipeline (append-`'a'`, then reverse),
whose steps are exact inverses, round-tripping `"b"` returns `"a"`, not
`"b"`. -/
theorem pipeline_post_order_cex :
    (∀ s ∈ [stepAppendA, stepReverse], ∀ l, s.post (s.pre l) = l) ∧
    (pipelineOfSteps [stepAppendA, stepReverse]).post
        ((pipelineOfSteps [stepAppendA, stepReverse]).pre "b") = "a" ∧
    "a" ≠ "b" :=
  ⟨cexSteps_inv, by decide, by decide⟩

theorem foldl_rev_inverse :
    ∀ (steps : List LineTransform) (line : String),
      (∀ s ∈ steps, ∀ l, s.post (s.pre l) = l) →
      ((steps.map LineTransform.post).reverse).foldl (fun l m => m l)
        ((steps.map LineTransform.pre).foldl (fun l m => m l) line) = line := by
  intro steps
  induction steps with
  | nil => intro line _; rfl
  | cons s rest ih =>
    intro line hinv
    simp only [List.map_cons, List.reverse_cons, List.foldl_cons,
      List.foldl_append, List.foldl_nil]
    rw [ih (s.pre line) (fun x hx => hinv x (List.mem_cons_of_mem s hx))]
    exact hinv s (by simp) line

/-- C8 (amended).  `pre` applies `_pre` in list order, and `post` equally
applies `_post` in list order — the code performs no reversal.  A pipeline
of steps whose `post` is the true inverse of their `pre` is therefore
self-inverse exactly when it is constructed with the post operations listed
in reverse step order (as the repository's callers do). -/
theorem pipeline_self_inverse_rev (steps : List LineTransform) (line : String)
    (hinv : ∀ s ∈ steps, ∀ l, s.post (s.pre l) = l) :
    (pipelineOfStepsRev steps).post ((pipelineOfStepsRev steps).pre line) =
      line :=
  foldl_rev_inverse steps line hinv

theorem pipeline_self_inverse_rev_witness :
    (∀ s ∈ [stepAppendA, stepReverse], ∀ l, s.post (s.pre l) = l) ∧
    (pipelineOfStepsRev [stepAppendA, stepReverse]).post
        ((pipelineOfStepsRev [stepAppendA, stepReverse]).pre "b") = "b" :=
  ⟨cexSteps_inv,
    pipeline_self_inverse_rev [stepAppendA, stepReverse] "b" cexSteps_inv⟩

end ProbabllText
